/-
  Verification of the BlazePalm palm-region decoder
  (src/hand_detectors/blazepalm/blazepalm.py).

  Shallow embedding: numpy float arrays are modelled as lists / tuples /
  functions over ℝ; the TFLite inference engine and cv2 preprocessing are
  external collaborators and appear as oracle parameters.  Division follows
  the Lean convention x / 0 = 0 where the floating-point code would produce
  NaN; theorems about degenerate inputs state the zero divisor explicitly.
-/
import Mathlib

namespace BlazePalm

set_option maxRecDepth 8000

noncomputable section

open Classical

/-- A 2-d float vector (one (x, y) row of a numpy array). -/
abbrev Vec2 := ℝ × ℝ

/-- The alignment triangle: three 2-d points. -/
abbrev Tri := Vec2 × Vec2 × Vec2

/-- The confidence threshold `CONFINDENCE_THRESHOLD = 0.5` (blazepalm.py line 18). -/
def CONFINDENCE_THRESHOLD : ℝ := 0.5

/-- Default `box_enlarge` argument of `BlazePalm.__init__` (1.5); the GUI always
constructs `BlazePalm()` with the defaults. -/
def box_enlarge : ℝ := 1.5

/-- Default `box_shift` argument of `BlazePalm.__init__` (0.2). -/
def box_shift : ℝ := 0.2

/-- Sigmoid `BlazePalm._sigm`: `1 / (1 + np.exp(-x))`. -/
def sigm (x : ℝ) : ℝ := 1 / (1 + Real.exp (-x))

/-- Euclidean norm `np.linalg.norm` of a 2-vector. -/
def norm2 (v : Vec2) : ℝ := Real.sqrt (v.1 ^ 2 + v.2 ^ 2)

/-- Application of the fixed rotation `dir_v @ R90.T` with
`R90 = [[0, 1], [-1, 0]]` (blazepalm.py lines 59, 79):
`(x, y) ↦ (y, -x)`. -/
def rot90 (v : Vec2) : Vec2 := (v.2, -v.1)

/-- Triangle builder `BlazePalm._get_triangle(kp0, kp2, dist)`: normalize the direction
`kp2 - kp0`, rotate it by 90°, and return the three triangle points
`[kp2, kp2 + dir_v*dist, kp2 + dir_v_r*dist]`. -/
def get_triangle (kp0 kp2 : Vec2) (dist : ℝ) : Tri :=
  let dir_v : Vec2 := kp2 - kp0
  let n := norm2 dir_v
  let dir_v' : Vec2 := (dir_v.1 / n, dir_v.2 / n)
  let dir_v_r := rot90 dir_v'
  (kp2, kp2 + dist • dir_v', kp2 + dist • dir_v_r)

/-- Shift `source -= v` applied to the three triangle points
(blazepalm.py line 166, with `v = (keypoints[0] - keypoints[2]) * box_shift`). -/
def shiftTri (t : Tri) (v : Vec2) : Tri := (t.1 - v, t.2.1 - v, t.2.2 - v)

/-- Constant `self._target_triangle` (blazepalm.py lines 63–67). -/
def target_triangle : Fin 3 → Vec2 := ![(128, 128), (128, 0), (0, 128)]

/-- Constant `self._target_box` (blazepalm.py lines 68–73): four homogeneous rows. -/
def target_box : List (Fin 3 → ℝ) :=
  [![0, 0, 1], ![256, 0, 1], ![256, 256, 1], ![0, 256, 1]]

/-- One row of the affine system solved by `cv2.getAffineTransform`: the
coefficients (a, b, c) with `a * sx_i + b * sy_i + c = t_i` for the three
source points, written out by the Cramer rule (the determinant `D` of the
homogeneous source matrix, and each unknown as a ratio of determinants). -/
def solveRow (s : Fin 3 → Vec2) (t : Fin 3 → ℝ) : Fin 3 → ℝ :=
  let x0 := (s 0).1; let y0 := (s 0).2
  let x1 := (s 1).1; let y1 := (s 1).2
  let x2 := (s 2).1; let y2 := (s 2).2
  let D := x0 * (y1 - y2) - y0 * (x1 - x2) + (x1 * y2 - x2 * y1)
  ![(t 0 * (y1 - y2) - y0 * (t 1 - t 2) + (t 1 * y2 - t 2 * y1)) / D,
    (x0 * (t 1 - t 2) - t 0 * (x1 - x2) + (x1 * t 2 - x2 * t 1)) / D,
    (x0 * (y1 * t 2 - y2 * t 1) - y0 * (x1 * t 2 - x2 * t 1) +
      t 0 * (x1 * y2 - x2 * y1)) / D]

/-- Solver `cv2.getAffineTransform(src, dst)`: the 2×3 matrix [[a,b,c],[d,e,f]] with
`[a,b,c]·[x_i,y_i,1] = dst_i.x` and `[d,e,f]·[x_i,y_i,1] = dst_i.y`. -/
def getAffineTransform (s : Fin 3 → Vec2) (d : Fin 3 → Vec2) :
    Matrix (Fin 2) (Fin 3) ℝ :=
  Matrix.of ![solveRow s (fun i => (d i).1), solveRow s (fun i => (d i).2)]

/-- Padding `self._pad1(Mtr.T).T` (blazepalm.py lines 103–105, 202): append a row of
ones below the 2×3 affine matrix to make it 3×3. -/
def pad1T (M : Matrix (Fin 2) (Fin 3) ℝ) : Matrix (Fin 3) (Fin 3) ℝ :=
  Matrix.of ![fun j => M 0 j, fun j => M 1 j, ![1, 1, 1]]

/-- Assignment `Mtr[2, :2] = 0` (blazepalm.py line 203): zero the first two entries of
the last row, keeping the (2,2) entry. -/
def fixLastRow (N : Matrix (Fin 3) (Fin 3) ℝ) : Matrix (Fin 3) (Fin 3) ℝ :=
  Matrix.of ![fun j => N 0 j, fun j => N 1 j, ![0, 0, N 2 2]]

/-- The padded homogeneous matrix `Mtr` computed by `pred_bbox`
(blazepalm.py lines 197–203) from the source triangle scaled by `scale`. -/
def mtrOf (source : Tri) (scale : ℝ) : Matrix (Fin 3) (Fin 3) ℝ :=
  fixLastRow (pad1T (getAffineTransform
    ![scale • source.1, scale • source.2.1, scale • source.2.2] target_triangle))

/-- Inversion `np.linalg.inv` on a 3×3 real matrix, idealized as adjugate over
determinant (blazepalm.py line 204). -/
def matInv3 (M : Matrix (Fin 3) (Fin 3) ℝ) : Matrix (Fin 3) (Fin 3) ℝ :=
  M.det⁻¹ • M.adjugate

/-- A 4-value box row (the first four entries of a regression row, as
passed to the suppression dependency: `moved_candidate_detect[:, :4]`). -/
abbrev Box4 := ℝ × ℝ × ℝ × ℝ

/-- Modelled from the spec: the intersection area of two boxes (the
suppression dependency `non_max_suppression_fast` is not under src/; spec §4
step 4 describes overlap as intersection area ÷ own area). -/
def interArea (p q : Box4) : ℝ :=
  max 0 (min p.2.2.1 q.2.2.1 - max p.1 q.1) *
    max 0 (min p.2.2.2 q.2.2.2 - max p.2.1 q.2.1)

/-- Modelled from the spec: the area of a box. -/
def boxArea (p : Box4) : ℝ := (p.2.2.1 - p.1) * (p.2.2.2 - p.2.1)

/-- Modelled from the spec: overlap of `other` with the kept box:
intersection area ÷ own area (the area of the other box). -/
def overlapFrac (kept other : Box4) : ℝ := interArea kept other / boxArea other

/-- Modelled from the spec: the fixed overlap threshold of the suppression
dependency; its numeric value is not stated in the spec, 0.5 is used here as
the definite representative value. -/
def overlapThresh : ℝ := 0.5

/-- Modelled from the spec: pick the highest-probability remaining entry
(triples are (original index, box, probability)); on ties the earlier entry
wins, so selection is stable by descending probability then original index. -/
def pickBest (x : ℕ × Box4 × ℝ) (xs : List (ℕ × Box4 × ℝ)) : ℕ × Box4 × ℝ :=
  xs.foldl (fun b y => if b.2.2 < y.2.2 then y else b) x

/-- Modelled from the spec: one greedy suppression pass — repeatedly pick the
highest-probability remaining box, drop it and every box whose overlap ratio
with it exceeds the threshold, and recurse (fuel = initial list length). -/
def nmsGo (thresh : ℝ) : ℕ → List (ℕ × Box4 × ℝ) → List ℕ
  | 0, _ => []
  | _ + 1, [] => []
  | fuel + 1, x :: xs =>
    let best := pickBest x xs
    let rest := (x :: xs).filter fun y =>
      decide (y.1 ≠ best.1) && decide (overlapFrac best.2.1 y.2.1 ≤ thresh)
    best.1 :: nmsGo thresh fuel rest

/-- Pair every list element with its position, starting at `k`. -/
def indexed {α : Type _} : ℕ → List α → List (ℕ × α)
  | _, [] => []
  | k, x :: xs => (k, x) :: indexed (k + 1) xs

/-- Modelled from the spec: greedy non-maximum suppression over boxes ranked
by probability, returning the selected original indices in selection order. -/
def nms (thresh : ℝ) (boxes : List Box4) (probs : List ℝ) : List ℕ :=
  nmsGo thresh (indexed 0 (boxes.zip probs)).length (indexed 0 (boxes.zip probs))

/-- Modelled from the spec: the suppression dependency as called by
`detect_hand` (blazepalm.py line 145), with its fixed overlap threshold. -/
def non_max_suppression_fast (boxes : List Box4) (probs : List ℝ) : List ℕ :=
  nms overlapThresh boxes probs

/-- A raw image tensor (numpy array of shape (h, w, c) as nested lists). -/
abbrev Image := List (List (List ℝ))

/-- The two raw output tensors of the palm-detection network
(`out_reg` rows of 18 values, `out_clf` one logit per anchor). -/
structure NetOut where
  reg : List (List ℝ)
  clf : List ℝ

/-- The `debug_info` dictionary built by `detect_hand` (lines 168–172). -/
structure DebugInfo where
  detection_candidates : List (List ℝ)
  anchor_candidates : List Vec2
  selected_box_id : ℕ

/-- The first assert of `detect_hand` (line 108):
`-1 <= img_norm.min() and img_norm.max() <= 1`. -/
def rangeOk (img : Image) : Prop := ∀ r ∈ img, ∀ p ∈ r, ∀ v ∈ p, -1 ≤ v ∧ v ≤ 1

/-- The second assert of `detect_hand` (line 110):
`img_norm.shape == (256, 256, 3)`. -/
def shapeOk (img : Image) : Prop :=
  img.length = 256 ∧ ∀ r ∈ img, r.length = 256 ∧ ∀ p ∈ r, p.length = 3

/-- The two precondition asserts of `detect_hand` (lines 108–111), range
first, as an `Except`: a failed assert is a raised error. -/
def checkImg (img : Image) : Except String Unit :=
  if rangeOk img then
    if shapeOk img then .ok ()
    else .error "img_norm shape must be (256, 256, 3)"
  else .error "img_norm should be in range [-1, 1]"

/-- The boolean threshold mask `probabilities > CONFINDENCE_THRESHOLD`
(line 131). -/
def maskOf (probs : List ℝ) : List Bool :=
  probs.map fun p => decide (CONFINDENCE_THRESHOLD < p)

/-- Numpy boolean-mask indexing `a[mask]`: keep the entries whose mask bit
is true, in order. -/
def maskFilter {α : Type _} : List α → List Bool → List α
  | x :: xs, b :: bs => if b then x :: maskFilter xs bs else maskFilter xs bs
  | _, _ => []

/-- The positions (starting at `k`) at which a boolean mask is true. -/
def truePositions : List Bool → ℕ → List ℕ
  | [], _ => []
  | b :: bs, k => if b then k :: truePositions bs (k + 1) else truePositions bs (k + 1)

/-- One row of `moved_candidate_detect` (lines 142–144): the first two
entries (dx, dy) are shifted by the anchor coordinates × 256, the rest of
the row is copied unchanged. -/
def movedRow (r : List ℝ) (a : Vec2) : List ℝ :=
  match r with
  | r0 :: r1 :: rest => (r0 + a.1 * 256) :: (r1 + a.2 * 256) :: rest
  | short => short

/-- Slice `row[:4]` of a moved candidate row, as passed to suppression. -/
def box4of (r : List ℝ) : Box4 := (r.getD 0 0, r.getD 1 0, r.getD 2 0, r.getD 3 0)

/-- Reshape `np.reshape(-1, 2)`: pair up consecutive values. -/
def pairUp : List ℝ → List Vec2
  | x :: y :: rest => (x, y) :: pairUp rest
  | _ => []

/-- The seven absolute keypoints of a candidate (lines 153–157):
`candidate_anchors[box_ids, :2] * 256 + candidate_detect[box_ids, 4:].reshape(-1, 2)`. -/
def keypointsOf (r : List ℝ) (a : Vec2) : List Vec2 :=
  (pairUp (r.drop 4)).map fun p => (a.1 * 256 + p.1, a.2 * 256 + p.2)

/-- Decoder `BlazePalm.detect_hand` (lines 107–174).  The TFLite interpreter is the
oracle `infer`; the anchor table is `anchors`.  Returns `.error` for a failed
assert, `.ok none` for "no hands found", and otherwise the shifted source
triangle, the seven keypoints and the debug info. -/
def detect_hand (anchors : List Vec2) (infer : Image → NetOut) (img : Image) :
    Except String (Option (Tri × List Vec2 × DebugInfo)) :=
  match checkImg img with
  | .error e => .error e
  | .ok _ =>
    let out := infer img
    let probabilities := out.clf.map sigm
    let mask := maskOf probabilities
    let candidate_detect := maskFilter out.reg mask
    let candidate_anchors := maskFilter anchors mask
    let probs := maskFilter probabilities mask
    if candidate_detect.length = 0 then .ok none
    else
      let moved := List.zipWith movedRow candidate_detect candidate_anchors
      let box_ids := non_max_suppression_fast (moved.map box4of) probs
      let box_id := box_ids.headD 0
      let row := candidate_detect.getD box_id []
      let anchor := candidate_anchors.getD box_id (0, 0)
      let keypoints := keypointsOf row anchor
      let side := max (row.getD 2 0) (row.getD 3 0) * box_enlarge
      let source := get_triangle (keypoints.getD 0 (0, 0)) (keypoints.getD 2 (0, 0)) side
      let source' := shiftTri source
        (box_shift • (keypoints.getD 0 (0, 0) - keypoints.getD 2 (0, 0)))
      .ok (some (source', keypoints, ⟨candidate_detect, candidate_anchors, box_id⟩))

/-- Entry point `BlazePalm.pred_bbox` (lines 189–208) from `detect_hand` onwards.  The
cv2 preprocessing (pad + resize) is external, so the normalized image, the
scale `max(img.shape) / 256` and the pad offsets are parameters; the final
subtraction is `box_orig -= pad[::-1]`. -/
def pred_bbox (anchors : List Vec2) (infer : Image → NetOut) (img_norm : Image)
    (scale : ℝ) (pad : Vec2) : Except String (Option (List Vec2)) :=
  match detect_hand anchors infer img_norm with
  | .error e => .error e
  | .ok none => .ok none
  | .ok (some (source, _, _)) =>
    let Minv := matInv3 (mtrOf source scale)
    .ok (some (target_box.map fun t =>
      ((Minv.mulVec t) 0 - pad.2, (Minv.mulVec t) 1 - pad.1)))

/-- Concrete fixture: a valid all-zero normalized 256×256×3 image tensor. -/
def imgZero : Image := List.replicate 256 (List.replicate 256 (List.replicate 3 0))

/-- Concrete fixture: an oracle whose single anchor logit (-1) is below
threshold. -/
def inferLow : Image → NetOut := fun _ => ⟨[[1, 2]], [-1]⟩

/-- Concrete fixture: an 18-value regression row. -/
def r18c : List ℝ := [1, 2, 3, 4, 5, 6, 7, 8, 9, 10, 11, 12, 13, 14, 15, 16, 17, 18]

/-- Concrete fixture: one anchor coordinate pair. -/
def a18c : Vec2 := (1 / 2, 2)

/-- Concrete fixture: a one-anchor table. -/
def anchors1 : List Vec2 := [(0, 0)]

/-- Concrete fixture: an oracle with one regression row and one logit. -/
def infer1 : Image → NetOut := fun _ => ⟨[[]], [1]⟩

/-- C4: the geometry step of `detect_hand` (lines 158, 165–166): with
`side = max(w, h) * box_enlarge` and the frame
`shiftTri (get_triangle kp0 kp2 side) (box_shift • (kp0 - kp2))`,
the baseline (first → second point) is the wrist→middle-finger vector scaled
to length `max(w, h) * 1.5`, the third point offset is the baseline rotated
90°, and the whole frame is shifted along the wrist→middle-finger axis by
the fixed factor `box_shift = 0.2`. -/
theorem C4_oriented_frame (kp0 kp2 : Vec2) (w h : ℝ) (t : Tri)
    (ht : t = shiftTri (get_triangle kp0 kp2 (max w h * box_enlarge))
      (box_shift • (kp0 - kp2)))
    (hne : kp0 ≠ kp2) (hw : 0 ≤ w) (hh : 0 ≤ h) :
    norm2 (t.2.1 - t.1) = max w h * 1.5 ∧
    t.2.1 - t.1 = ((max w h * box_enlarge) / norm2 (kp2 - kp0)) • (kp2 - kp0) ∧
    t.2.2 - t.1 = rot90 (t.2.1 - t.1) ∧
    t.1 = kp2 + box_shift • (kp2 - kp0) ∧
    box_enlarge = 1.5 ∧ box_shift = 0.2 := by
  subst ht
  set side := max w h * box_enlarge with hside
  set d : Vec2 := kp2 - kp0 with hd
  have hd0 : d ≠ 0 := sub_ne_zero.mpr (Ne.symm hne)
  have hsum : 0 < d.1 ^ 2 + d.2 ^ 2 := by
    by_cases h1 : d.1 = 0
    · have h2 : d.2 ≠ 0 := by
        intro h2
        exact hd0 (Prod.ext_iff.mpr (by simp [h1, h2]))
      have := lt_of_le_of_ne (sq_nonneg d.2) (Ne.symm (pow_ne_zero 2 h2))
      nlinarith [sq_nonneg d.1]
    · have := lt_of_le_of_ne (sq_nonneg d.1) (Ne.symm (pow_ne_zero 2 h1))
      nlinarith [sq_nonneg d.2]
  have hn : 0 < norm2 d := by
    unfold norm2
    exact Real.sqrt_pos.mpr hsum
  have hnsq : norm2 d ^ 2 = d.1 ^ 2 + d.2 ^ 2 := by
    unfold norm2
    exact Real.sq_sqrt hsum.le
  have hside0 : 0 ≤ side := by
    rw [hside]
    exact mul_nonneg (le_trans hw (le_max_left w h)) (by norm_num [box_enlarge])
  have h1p : (shiftTri (get_triangle kp0 kp2 side) (box_shift • (kp0 - kp2))).1 =
      kp2 - box_shift • (kp0 - kp2) := by
    simp [shiftTri, get_triangle]
  have h21 : (shiftTri (get_triangle kp0 kp2 side) (box_shift • (kp0 - kp2))).2.1 -
      (shiftTri (get_triangle kp0 kp2 side) (box_shift • (kp0 - kp2))).1 =
      side • ((d.1 / norm2 d, d.2 / norm2 d) : Vec2) := by
    simp only [shiftTri, get_triangle, hd]
    abel
  have h22 : (shiftTri (get_triangle kp0 kp2 side) (box_shift • (kp0 - kp2))).2.2 -
      (shiftTri (get_triangle kp0 kp2 side) (box_shift • (kp0 - kp2))).1 =
      side • rot90 ((d.1 / norm2 d, d.2 / norm2 d) : Vec2) := by
    simp only [shiftTri, get_triangle, hd]
    abel
  refine ⟨?_, ?_, ?_, ?_, by norm_num [box_enlarge], by norm_num [box_shift]⟩
  · rw [h21]
    set n := norm2 d with hnd
    unfold norm2
    have key : (side • ((d.1 / n, d.2 / n) : Vec2)).1 ^ 2 +
        (side • ((d.1 / n, d.2 / n) : Vec2)).2 ^ 2 = side ^ 2 := by
      simp only [Prod.smul_mk, smul_eq_mul]
      have expand : (side * (d.1 / n)) ^ 2 + (side * (d.2 / n)) ^ 2 =
          side ^ 2 * ((d.1 ^ 2 + d.2 ^ 2) / n ^ 2) := by
        ring
      rw [expand, hnsq, div_self (ne_of_gt hsum), mul_one]
    rw [key, Real.sqrt_sq hside0, hside]
    norm_num [box_enlarge]
  · rw [h21]
    rw [Prod.ext_iff]
    constructor
    · simp only [Prod.smul_mk, smul_eq_mul, Prod.smul_fst]
      ring
    · simp only [Prod.smul_mk, smul_eq_mul, Prod.smul_snd]
      ring
  · rw [h22, h21]
    rw [Prod.ext_iff]
    constructor
    · simp only [rot90, Prod.smul_mk, smul_eq_mul]
    · simp only [rot90, Prod.smul_mk, smul_eq_mul]
      ring
  · rw [h1p, show kp0 - kp2 = -(kp2 - kp0) by abel, smul_neg, sub_neg_eq_add]

/-- Witness for C4 at kp0 = (0,0), kp2 = (3,4), w = 2, h = 1
(baseline norm max 2 1 · 5 = sqrt(3² + 4²) scaled; hypotheses concrete). -/
theorem C4_witness :
    ((0, 0) : Vec2) ≠ ((3, 4) : Vec2) ∧
    norm2 ((shiftTri (get_triangle (0, 0) (3, 4) (max 2 1 * box_enlarge))
        (box_shift • (((0, 0) : Vec2) - (3, 4)))).2.1 -
      (shiftTri (get_triangle (0, 0) (3, 4) (max 2 1 * box_enlarge))
        (box_shift • (((0, 0) : Vec2) - (3, 4)))).1) = max 2 1 * 1.5 := by
  have hne : ((0, 0) : Vec2) ≠ ((3, 4) : Vec2) := by
    simp [Prod.ext_iff]
  exact ⟨hne,
    (C4_oriented_frame (0, 0) (3, 4) 2 1 _ rfl hne (by norm_num) (by norm_num)).1⟩

/-- The computed inverse is a two-sided inverse whenever the determinant is
nonzero (the idealized `np.linalg.inv` contract). -/
theorem matInv3_mul_inv (M : Matrix (Fin 3) (Fin 3) ℝ) (h : M.det ≠ 0) :
    M * matInv3 M = 1 ∧ matInv3 M * M = 1 := by
  constructor
  · unfold matInv3
    rw [Matrix.mul_smul, Matrix.mul_adjugate, smul_smul, inv_mul_cancel₀ h, one_smul]
  · unfold matInv3
    rw [Matrix.smul_mul, Matrix.adjugate_mul, smul_smul, inv_mul_cancel₀ h, one_smul]

/-- The determinant of the padded-and-fixed homogeneous matrix is the
determinant of the affine 2×2 block (last row is [0, 0, 1]). -/
theorem det_fixLastRow_pad1T (M : Matrix (Fin 2) (Fin 3) ℝ) :
    (fixLastRow (pad1T M)).det = M 0 0 * M 1 1 - M 0 1 * M 1 0 := by
  rw [Matrix.det_fin_three]
  simp [fixLastRow, pad1T]

/-- C6: for a non-degenerate recovered transform (`Mtr` invertible), `Mtr`
composed with its computed inverse `Minv` is the identity map on embedded
coordinates, in both orders, and projecting the canonical target box through
`Mtr` and then `Minv` reproduces it exactly. -/
theorem C6_affine_roundtrip (source : Tri) (scale : ℝ)
    (hdet : (mtrOf source scale).det ≠ 0) :
    mtrOf source scale * matInv3 (mtrOf source scale) = 1 ∧
    matInv3 (mtrOf source scale) * mtrOf source scale = 1 ∧
    target_box.map (fun t => (matInv3 (mtrOf source scale)).mulVec
      ((mtrOf source scale).mulVec t)) = target_box := by
  obtain ⟨h1, h2⟩ := matInv3_mul_inv _ hdet
  refine ⟨h1, h2, ?_⟩
  have hpt : ∀ t : Fin 3 → ℝ,
      (matInv3 (mtrOf source scale)).mulVec ((mtrOf source scale).mulVec t) = t := by
    intro t
    rw [Matrix.mulVec_mulVec, h2, Matrix.one_mulVec]
  have hfun : (fun t : Fin 3 → ℝ => (matInv3 (mtrOf source scale)).mulVec
      ((mtrOf source scale).mulVec t)) = fun t => t := funext hpt
  rw [hfun]
  simp

/-- Witness for C6: the source triangle equal to the target triangle with
scale 1, for which `Mtr` is the identity matrix (determinant 1 ≠ 0). -/
theorem C6_witness :
    mtrOf ((128, 128), (128, 0), (0, 128)) 1 *
      matInv3 (mtrOf ((128, 128), (128, 0), (0, 128)) 1) = 1 := by
  have hdet : (mtrOf ((128, 128), (128, 0), (0, 128)) 1).det ≠ 0 := by
    unfold mtrOf
    rw [det_fixLastRow_pad1T]
    norm_num [getAffineTransform, solveRow, target_triangle]
  exact (C6_affine_roundtrip ((128, 128), (128, 0), (0, 128)) 1 hdet).1

/-- C7: every computed probability `sigm x` lies strictly in (0, 1), and the
`> CONFINDENCE_THRESHOLD` filter of `detect_hand` is monotone in the logit:
if the anchor with logit `a ≤ b` passes, so does the anchor with logit `b`. -/
theorem C7_sigmoid_range_monotone (a b : ℝ) (hab : a ≤ b) :
    (0 < sigm a ∧ sigm a < 1) ∧
      (CONFINDENCE_THRESHOLD < sigm a → CONFINDENCE_THRESHOLD < sigm b) := by
  have hpos : ∀ x : ℝ, 0 < 1 + Real.exp (-x) := by
    intro x
    have := Real.exp_pos (-x)
    linarith
  have hmono : sigm a ≤ sigm b := by
    unfold sigm
    have he : Real.exp (-b) ≤ Real.exp (-a) := Real.exp_le_exp.mpr (by linarith)
    have ha := hpos a
    have hb := hpos b
    rw [div_le_div_iff₀ ha hb]
    linarith
  refine ⟨⟨?_, ?_⟩, ?_⟩
  · exact div_pos one_pos (hpos a)
  · unfold sigm
    rw [div_lt_one (hpos a)]
    have := Real.exp_pos (-a)
    linarith
  · intro h
    exact lt_of_lt_of_le h hmono

/-- Witness for C7 at the concrete logits a = 1, b = 2. -/
theorem C7_witness :
    (0 < sigm 1 ∧ sigm 1 < 1) ∧
      (CONFINDENCE_THRESHOLD < sigm 1 → CONFINDENCE_THRESHOLD < sigm 2) :=
  C7_sigmoid_range_monotone 1 2 (by norm_num)

/-- C3 (code evaluation at the failing input): when the wrist and
middle-finger keypoints coincide (here both `(3, 4)`), `_get_triangle`
divides the direction vector by a zero norm — the divisor `norm2 (kp2 - kp0)`
is 0 — and still returns an ordinary (fully degenerate) triangle instead of
signalling a geometric-degeneracy error.  (In floating point the division
0/0 silently yields NaN; in this real-number embedding it yields 0.) -/
theorem C3_zero_baseline_no_error :
    norm2 (((3, 4) : Vec2) - ((3, 4) : Vec2)) = 0 ∧
      get_triangle (3, 4) (3, 4) 1 = ((3, 4), (3, 4), (3, 4)) := by
  constructor
  · simp [norm2, Prod.ext_iff]
  · simp [get_triangle, norm2, rot90, Prod.ext_iff]

/-- Mask filtering with an all-false mask keeps nothing. -/
theorem maskFilter_eq_nil {α : Type _} (l : List α) (m : List Bool)
    (h : ∀ b ∈ m, b = false) : maskFilter l m = [] := by
  induction l generalizing m with
  | nil => cases m <;> rfl
  | cons x xs ih =>
    cases m with
    | nil => rfl
    | cons b bs =>
      have hb : b = false := h b (by simp)
      subst hb
      simp only [maskFilter, if_neg Bool.false_ne_true]
      exact ih bs fun b hb => h b (by simp [hb])

/-- C9: for an input tensor of wrong shape or with out-of-range values,
`detect_hand` fails with the corresponding assert error; the result is the
same error for every inference oracle and anchor table, so the failure
happens before any inference or decoding computation. -/
theorem C9_precondition_fails_fast (anchors anchors' : List Vec2)
    (infer infer' : Image → NetOut) (img : Image)
    (h : ¬ shapeOk img ∨ ¬ rangeOk img) :
    ∃ e, detect_hand anchors infer img = .error e ∧
      detect_hand anchors' infer' img = .error e := by
  by_cases hr : rangeOk img
  · have hs : ¬ shapeOk img := by
      rcases h with h | h
      · exact h
      · exact absurd hr h
    have hc : checkImg img = .error "img_norm shape must be (256, 256, 3)" := by
      rw [checkImg, if_pos hr, if_neg hs]
    exact ⟨"img_norm shape must be (256, 256, 3)",
      by simp only [detect_hand, hc],
      by simp only [detect_hand, hc]⟩
  · have hc : checkImg img = .error "img_norm should be in range [-1, 1]" := by
      rw [checkImg, if_neg hr]
    exact ⟨"img_norm should be in range [-1, 1]",
      by simp only [detect_hand, hc],
      by simp only [detect_hand, hc]⟩

/-- Witness for C9 at the concrete empty image (shape () ≠ (256, 256, 3)),
with two different oracles/anchor tables. -/
theorem C9_witness :
    ∃ e, detect_hand [] (fun _ => ⟨[], []⟩) [] = .error e ∧
      detect_hand [(1, 1)] (fun _ => ⟨[[]], [5]⟩) [] = .error e :=
  C9_precondition_fails_fast [] [(1, 1)] (fun _ => ⟨[], []⟩) (fun _ => ⟨[[]], [5]⟩)
    [] (Or.inl (by simp [shapeOk]))

/-- C1: if no sigmoid probability of any anchor strictly exceeds the threshold,
`detect_hand` answers `.ok none` ("No hands found", before the suppression
and geometry steps of its body are reached), and `pred_bbox` therefore
returns the no-detection value as well. -/
theorem C1_no_candidate_none (anchors : List Vec2) (infer : Image → NetOut)
    (img : Image) (scale : ℝ) (pad : Vec2)
    (hok : checkImg img = .ok ())
    (hlow : ∀ x ∈ (infer img).clf, sigm x ≤ CONFINDENCE_THRESHOLD) :
    detect_hand anchors infer img = .ok none ∧
      pred_bbox anchors infer img scale pad = .ok none := by
  have hmask : ∀ b ∈ maskOf ((infer img).clf.map sigm), b = false := by
    intro b hb
    unfold maskOf at hb
    rw [List.mem_map] at hb
    obtain ⟨p, hp, hb⟩ := hb
    rw [List.mem_map] at hp
    obtain ⟨x, hx, hp⟩ := hp
    subst hp
    subst hb
    exact decide_eq_false (not_lt.mpr (hlow x hx))
  have hfilter : maskFilter (infer img).reg (maskOf ((infer img).clf.map sigm)) = [] :=
    maskFilter_eq_nil _ _ hmask
  have hdh : detect_hand anchors infer img = .ok none := by
    simp only [detect_hand, hok, hfilter, List.length_nil, if_pos]
  exact ⟨hdh, by simp [pred_bbox, hdh]⟩

/-- Witness for C1: the all-zero valid image and an oracle with a single
below-threshold logit -1. -/
theorem C1_witness :
    detect_hand [] inferLow imgZero = .ok none ∧
      pred_bbox [] inferLow imgZero 1 (0, 0) = .ok none := by
  apply C1_no_candidate_none
  · have hr : rangeOk imgZero := by
      intro r hr p hp v hv
      rw [imgZero] at hr
      rw [List.eq_of_mem_replicate hr] at hp
      rw [List.eq_of_mem_replicate hp] at hv
      rw [List.eq_of_mem_replicate hv]
      norm_num
    have hs : shapeOk imgZero := by
      refine ⟨by simp [imgZero], ?_⟩
      intro r hr
      rw [imgZero] at hr
      rw [List.eq_of_mem_replicate hr]
      refine ⟨by simp, ?_⟩
      intro p hp
      rw [List.eq_of_mem_replicate hp]
      simp
    simp [checkImg, hr, hs]
  · intro x hx
    have hx' : x = -1 := by
      simpa [inferLow] using hx
    subst hx'
    have h1 : (1 : ℝ) ≤ Real.exp 1 := by
      have := Real.add_one_le_exp (1 : ℝ)
      linarith
    have hpos : (0 : ℝ) < 1 + Real.exp 1 := by positivity
    rw [sigm, CONFINDENCE_THRESHOLD]
    rw [neg_neg]
    rw [show (0.5 : ℝ) = 1 / 2 by norm_num]
    rw [div_le_div_iff₀ hpos (by norm_num : (0 : ℝ) < 2)]
    linarith

/-- C2: one `pred_bbox` call yields an assert error, the no-detection value,
or exactly one oriented box given as exactly four 2-d coordinate pairs —
never several boxes, whatever suppression leaves. -/
theorem C2_single_box_or_none (anchors : List Vec2) (infer : Image → NetOut)
    (img : Image) (scale : ℝ) (pad : Vec2) :
    (∃ e, pred_bbox anchors infer img scale pad = .error e) ∨
      pred_bbox anchors infer img scale pad = .ok none ∨
      ∃ b, pred_bbox anchors infer img scale pad = .ok (some b) ∧ b.length = 4 := by
  cases hd : detect_hand anchors infer img with
  | error e => exact Or.inl ⟨e, by simp [pred_bbox, hd]⟩
  | ok o =>
    cases o with
    | none => exact Or.inr (Or.inl (by simp [pred_bbox, hd]))
    | some v =>
      obtain ⟨source, rest⟩ := v
      obtain ⟨kps, dbg⟩ := rest
      refine Or.inr (Or.inr ⟨target_box.map (fun t =>
        (((matInv3 (mtrOf source scale)).mulVec t) 0 - pad.2,
          ((matInv3 (mtrOf source scale)).mulVec t) 1 - pad.1)), ?_, ?_⟩)
      · simp [pred_bbox, hd]
      · simp [target_box]

/-- Pairing halves the length (integer division). -/
theorem pairUp_length : ∀ l : List ℝ, (pairUp l).length = l.length / 2
  | [] => by simp [pairUp]
  | [_] => by simp [pairUp]
  | _ :: _ :: rest => by
    simp only [pairUp, List.length_cons, pairUp_length rest]
    omega

/-- Entry `k` of `pairUp l` is the pair of entries `2k` and `2k+1` of `l`. -/
theorem pairUp_getD : ∀ (l : List ℝ) (k : ℕ), 2 * k + 1 < l.length →
    (pairUp l).getD k (0, 0) = (l.getD (2 * k) 0, l.getD (2 * k + 1) 0)
  | [], k, h => by simp at h
  | [x], k, h => by
    simp only [List.length_singleton] at h
    omega
  | x :: y :: rest, 0, h => by simp [pairUp]
  | x :: y :: rest, k + 1, h => by
    have hlen : 2 * k + 1 < rest.length := by
      simp only [List.length_cons] at h
      omega
    have hrec := pairUp_getD rest k hlen
    have e1 : (x :: y :: rest).getD (2 * (k + 1)) 0 = rest.getD (2 * k) 0 := by
      rw [show 2 * (k + 1) = 2 * k + 1 + 1 from by omega, List.getD_cons_succ,
        List.getD_cons_succ]
    have e2 : (x :: y :: rest).getD (2 * (k + 1) + 1) 0 = rest.getD (2 * k + 1) 0 := by
      rw [show 2 * (k + 1) + 1 = 2 * k + 1 + 1 + 1 from by omega, List.getD_cons_succ,
        List.getD_cons_succ]
    rw [e1, e2]
    simp only [pairUp, List.getD_cons_succ]
    exact hrec

/-- Lookup through `drop` shifts the index. -/
theorem getD_drop' : ∀ (l : List ℝ) (n m : ℕ), (l.drop n).getD m 0 = l.getD (n + m) 0
  | _, 0, _ => by simp
  | [], _ + 1, _ => by simp
  | x :: xs, n + 1, m => by
    simp only [List.drop_succ_cons]
    rw [getD_drop' xs n m, show n + 1 + m = n + m + 1 from by omega,
      List.getD_cons_succ]

/-- Lookup through `map`, for an in-range index. -/
theorem getD_map_of_lt {α β : Type _} (f : α → β) (l : List α) (k : ℕ) (d : β)
    (d' : α) (h : k < l.length) : (l.map f).getD k d = f (l.getD k d') := by
  rw [List.getD_eq_getElem _ _ (by simpa using h), List.getElem_map,
    List.getD_eq_getElem _ _ h]

/-- C8: for an 18-value candidate row, the moved row used for suppression has
its center shifted by the anchor coordinate × 256 with width/height (entries
2 and 3) unchanged, and the absolute keypoints are anchor × 256 plus the 14
trailing deltas reshaped into 7 (x, y) pairs. -/
theorem C8_decode_arithmetic (r : List ℝ) (a : Vec2) (hr : r.length = 18) :
    (movedRow r a).getD 0 0 = r.getD 0 0 + a.1 * 256 ∧
    (movedRow r a).getD 1 0 = r.getD 1 0 + a.2 * 256 ∧
    (movedRow r a).getD 2 0 = r.getD 2 0 ∧
    (movedRow r a).getD 3 0 = r.getD 3 0 ∧
    (keypointsOf r a).length = 7 ∧
    ∀ k, k < 7 → (keypointsOf r a).getD k (0, 0) =
      (a.1 * 256 + r.getD (4 + 2 * k) 0, a.2 * 256 + r.getD (5 + 2 * k) 0) := by
  have hdroplen : (r.drop 4).length = 14 := by
    rw [List.length_drop, hr]
  have hkplen : (keypointsOf r a).length = 7 := by
    rw [keypointsOf, List.length_map, pairUp_length, hdroplen]
  obtain ⟨r0, r1, rest, hre⟩ : ∃ r0 r1 rest, r = r0 :: r1 :: rest := by
    match r, hr with
    | r0 :: r1 :: rest, _ => exact ⟨r0, r1, rest, rfl⟩
  refine ⟨?_, ?_, ?_, ?_, hkplen, ?_⟩
  · rw [hre]; rfl
  · rw [hre]; rfl
  · rw [hre]; rfl
  · rw [hre]; rfl
  · intro k hk
    have hklt : k < (pairUp (r.drop 4)).length := by
      rw [pairUp_length, hdroplen]
      omega
    rw [keypointsOf, getD_map_of_lt _ _ _ _ (0, 0) hklt,
      pairUp_getD _ k (by rw [hdroplen]; omega), getD_drop', getD_drop',
      show 4 + (2 * k + 1) = 5 + 2 * k from by omega]

/-- Witness for C8 at a concrete 18-value row and anchor. -/
theorem C8_witness :
    (movedRow r18c a18c).getD 0 0 = r18c.getD 0 0 + a18c.1 * 256 ∧
      (keypointsOf r18c a18c).length = 7 :=
  ⟨(C8_decode_arithmetic r18c a18c rfl).1,
    (C8_decode_arithmetic r18c a18c rfl).2.2.2.2.1⟩

/-- The picked entry is one of the candidates. -/
theorem pickBest_mem (x : ℕ × Box4 × ℝ) (xs : List (ℕ × Box4 × ℝ)) :
    pickBest x xs ∈ x :: xs := by
  suffices h : ∀ (ys : List (ℕ × Box4 × ℝ)) (acc : ℕ × Box4 × ℝ),
      ys.foldl (fun b y => if b.2.2 < y.2.2 then y else b) acc ∈ acc :: ys by
    exact h xs x
  intro ys
  induction ys with
  | nil => intro acc; simp
  | cons y ys ih =>
    intro acc
    simp only [List.foldl_cons]
    rcases List.mem_cons.mp (ih (if acc.2.2 < y.2.2 then y else acc)) with h | h
    · rw [h]
      by_cases hc : acc.2.2 < y.2.2
      · simp [hc]
      · simp [hc]
    · exact List.mem_cons_of_mem _ (List.mem_cons_of_mem _ h)

/-- The picked entry has maximal probability among the candidates. -/
theorem pickBest_le (x : ℕ × Box4 × ℝ) (xs : List (ℕ × Box4 × ℝ)) :
    ∀ y ∈ x :: xs, y.2.2 ≤ (pickBest x xs).2.2 := by
  suffices h : ∀ (ys : List (ℕ × Box4 × ℝ)) (acc : ℕ × Box4 × ℝ),
      acc.2.2 ≤ (ys.foldl (fun b y => if b.2.2 < y.2.2 then y else b) acc).2.2 ∧
        ∀ y ∈ ys, y.2.2 ≤ (ys.foldl (fun b y => if b.2.2 < y.2.2 then y else b) acc).2.2 by
    intro y hy
    rcases List.mem_cons.mp hy with h' | h'
    · rw [h']
      exact (h xs x).1
    · exact (h xs x).2 y h'
  intro ys
  induction ys with
  | nil => intro acc; exact ⟨le_refl _, by simp⟩
  | cons y ys ih =>
    intro acc
    simp only [List.foldl_cons]
    obtain ⟨h1, h2⟩ := ih (if acc.2.2 < y.2.2 then y else acc)
    refine ⟨le_trans ?_ h1, ?_⟩
    · by_cases hc : acc.2.2 < y.2.2
      · rw [if_pos hc]
        exact le_of_lt hc
      · rw [if_neg hc]
    · intro z hz
      rcases List.mem_cons.mp hz with h' | h'
      · rw [h']
        refine le_trans ?_ h1
        by_cases hc : acc.2.2 < y.2.2
        · rw [if_pos hc]
        · rw [if_neg hc]
          exact not_lt.mp hc
      · exact h2 z h'

/-- Membership in `indexed k l` determines a valid position of `l`. -/
theorem mem_indexed {α : Type _} :
    ∀ (l : List α) (k : ℕ) (p : ℕ × α), p ∈ indexed k l →
      k ≤ p.1 ∧ p.1 - k < l.length ∧ l.get? (p.1 - k) = some p.2 := by
  intro l
  induction l with
  | nil => intro k p hp; simp [indexed] at hp
  | cons x xs ih =>
    intro k p hp
    simp only [indexed, List.mem_cons] at hp
    rcases hp with hp | hp
    · subst hp
      refine ⟨le_refl _, by simp, by simp⟩
    · obtain ⟨h1, h2, h3⟩ := ih (k + 1) p hp
      refine ⟨by omega, by simp only [List.length_cons]; omega, ?_⟩
      rw [show p.1 - k = p.1 - (k + 1) + 1 from by omega, List.get?_cons_succ]
      exact h3

/-- Every element of `l` appears in `indexed k l` with some index. -/
theorem indexed_of_mem {α : Type _} :
    ∀ (l : List α) (k : ℕ) (a : α), a ∈ l → ∃ i, (i, a) ∈ indexed k l := by
  intro l
  induction l with
  | nil => intro k a ha; simp at ha
  | cons x xs ih =>
    intro k a ha
    rcases List.mem_cons.mp ha with h | h
    · exact ⟨k, by simp [indexed, h]⟩
    · obtain ⟨i, hi⟩ := ih (k + 1) a h
      exact ⟨i, by simp [indexed, Or.inr hi]⟩

/-- The first index selected by `nms` is a valid position of the zipped
candidate list and points at a candidate of maximal probability. -/
theorem nms_head_spec (thresh : ℝ) (boxes : List Box4) (probs : List ℝ)
    (hne : boxes.zip probs ≠ []) :
    (nms thresh boxes probs).headD 0 < (boxes.zip probs).length ∧
      ∃ m, (boxes.zip probs).get? ((nms thresh boxes probs).headD 0) = some m ∧
        ∀ y ∈ boxes.zip probs, y.2 ≤ m.2 := by
  cases hL : indexed 0 (boxes.zip probs) with
  | nil =>
    exfalso
    cases hl' : boxes.zip probs with
    | nil => exact hne hl'
    | cons z zs =>
      rw [hl'] at hL
      simp [indexed] at hL
  | cons x xs =>
    have hhead : (nms thresh boxes probs).headD 0 = (pickBest x xs).1 := by
      unfold nms
      rw [hL]
      simp [nmsGo]
    have hbm : pickBest x xs ∈ indexed 0 (boxes.zip probs) := by
      rw [hL]
      exact pickBest_mem x xs
    obtain ⟨-, h2, h3⟩ := mem_indexed (boxes.zip probs) 0 _ hbm
    rw [Nat.sub_zero] at h2 h3
    refine ⟨by rw [hhead]; exact h2, ⟨(pickBest x xs).2, by rw [hhead]; exact h3, ?_⟩⟩
    intro y hy
    obtain ⟨i, hi⟩ := indexed_of_mem (boxes.zip probs) 0 y hy
    rw [hL] at hi
    exact pickBest_le x xs (i, y) hi

/-- C5 counterexample: with two equal-probability, non-overlapping candidates,
the two orderings of the list are permutations of one another, yet the
surviving (first selected) candidate differs — the original-index tie-break
is order-dependent, so suppression is not order-independent as stated. -/
theorem C5_counterexample :
    (([((0 : ℝ), (0 : ℝ), (1 : ℝ), (1 : ℝ)), ((10 : ℝ), (10 : ℝ), (11 : ℝ), (11 : ℝ))].zip
        [(9 / 10 : ℝ), 9 / 10]).Perm
      ([((10 : ℝ), (10 : ℝ), (11 : ℝ), (11 : ℝ)), ((0 : ℝ), (0 : ℝ), (1 : ℝ), (1 : ℝ))].zip
        [(9 / 10 : ℝ), 9 / 10])) ∧
    ([((0 : ℝ), (0 : ℝ), (1 : ℝ), (1 : ℝ)), ((10 : ℝ), (10 : ℝ), (11 : ℝ), (11 : ℝ))].zip
        [(9 / 10 : ℝ), 9 / 10]).get?
      ((non_max_suppression_fast
        [((0 : ℝ), (0 : ℝ), (1 : ℝ), (1 : ℝ)), ((10 : ℝ), (10 : ℝ), (11 : ℝ), (11 : ℝ))]
        [(9 / 10 : ℝ), 9 / 10]).headD 0) ≠
    ([((10 : ℝ), (10 : ℝ), (11 : ℝ), (11 : ℝ)), ((0 : ℝ), (0 : ℝ), (1 : ℝ), (1 : ℝ))].zip
        [(9 / 10 : ℝ), 9 / 10]).get?
      ((non_max_suppression_fast
        [((10 : ℝ), (10 : ℝ), (11 : ℝ), (11 : ℝ)), ((0 : ℝ), (0 : ℝ), (1 : ℝ), (1 : ℝ))]
        [(9 / 10 : ℝ), 9 / 10]).headD 0) := by
  constructor
  · exact List.Perm.swap _ _ _
  · have e1 : (non_max_suppression_fast
        [((0 : ℝ), (0 : ℝ), (1 : ℝ), (1 : ℝ)), ((10 : ℝ), (10 : ℝ), (11 : ℝ), (11 : ℝ))]
        [(9 / 10 : ℝ), 9 / 10]).headD 0 = 0 := by
      simp [non_max_suppression_fast, nms, indexed, nmsGo, pickBest, lt_self_iff_false]
    have e2 : (non_max_suppression_fast
        [((10 : ℝ), (10 : ℝ), (11 : ℝ), (11 : ℝ)), ((0 : ℝ), (0 : ℝ), (1 : ℝ), (1 : ℝ))]
        [(9 / 10 : ℝ), 9 / 10]).headD 0 = 0 := by
      simp [non_max_suppression_fast, nms, indexed, nmsGo, pickBest, lt_self_iff_false]
    rw [e1, e2]
    intro h
    simp only [List.zip_cons_cons, List.get?] at h
    have := Option.some.inj h
    simp [Prod.ext_iff] at this

/-- C5 as amended: when the candidate probabilities are pairwise distinct
(no ties), the surviving (first selected) candidate of suppression is the
same for any permutation of the candidate list. -/
theorem C5_amended_order_independent (thresh : ℝ) (b b' : List Box4) (p p' : List ℝ)
    (hlb : b.length = p.length) (hlb' : b'.length = p'.length)
    (hperm : (b.zip p).Perm (b'.zip p'))
    (hnodup : p.Nodup) (hne : b ≠ []) :
    ∃ m, (b.zip p).get? ((nms thresh b p).headD 0) = some m ∧
      (b'.zip p').get? ((nms thresh b' p').headD 0) = some m := by
  have hzlen : (b.zip p).length = b.length := by
    rw [List.length_zip, ← hlb, min_self]
  have hzne : b.zip p ≠ [] := by
    intro h
    have h0 := congrArg List.length h
    rw [hzlen, List.length_nil] at h0
    exact hne (List.length_eq_zero.mp h0)
  have hzne' : b'.zip p' ≠ [] := by
    intro h
    rw [h] at hperm
    exact hzne hperm.eq_nil
  obtain ⟨h1, m, hm, hmax⟩ := nms_head_spec thresh b p hzne
  obtain ⟨h1', m', hm', hmax'⟩ := nms_head_spec thresh b' p' hzne'
  have hm_mem : m ∈ b.zip p := List.get?_mem hm
  have hm'_mem : m' ∈ b.zip p := hperm.mem_iff.mpr (List.get?_mem hm')
  have heq2 : m.2 = m'.2 :=
    le_antisymm (hmax' m (hperm.mem_iff.mp hm_mem)) (hmax m' hm'_mem)
  have hmapsnd : (b.zip p).map Prod.snd = p :=
    List.map_snd_zip b p (le_of_eq hlb.symm)
  have hnodup2 : ((b.zip p).map Prod.snd).Nodup := by
    rw [hmapsnd]
    exact hnodup
  have hmm' : m = m' := List.inj_on_of_nodup_map hnodup2 hm_mem hm'_mem heq2
  refine ⟨m, hm, ?_⟩
  rw [hmm']
  exact hm'

/-- Witness for the amended C5 at a concrete singleton candidate list. -/
theorem C5_witness :
    ∃ m, ([((0 : ℝ), (0 : ℝ), (1 : ℝ), (1 : ℝ))].zip [(9 / 10 : ℝ)]).get?
        ((nms (1 / 2) [((0 : ℝ), (0 : ℝ), (1 : ℝ), (1 : ℝ))] [(9 / 10 : ℝ)]).headD 0) = some m ∧
      ([((0 : ℝ), (0 : ℝ), (1 : ℝ), (1 : ℝ))].zip [(9 / 10 : ℝ)]).get?
        ((nms (1 / 2) [((0 : ℝ), (0 : ℝ), (1 : ℝ), (1 : ℝ))] [(9 / 10 : ℝ)]).headD 0) = some m :=
  C5_amended_order_independent (1 / 2) _ _ _ _ rfl rfl (List.Perm.refl _)
    (by simp) (by simp)

/-- Shifting the start index of `truePositions` shifts every reported
position. -/
theorem truePositions_shift : ∀ (m : List Bool) (k : ℕ),
    truePositions m (k + 1) = (truePositions m k).map (· + 1) := by
  intro m
  induction m with
  | nil => intro k; rfl
  | cons b bs ih =>
    intro k
    cases b <;> simp [truePositions, ih]

/-- Numpy boolean-mask indexing is the map of element lookup over the list
of true positions of the mask (same-length list and mask). -/
theorem maskFilter_eq_map {α : Type _} (d : α) :
    ∀ (l : List α) (m : List Bool), l.length = m.length →
      maskFilter l m = (truePositions m 0).map (fun i => l.getD i d) := by
  intro l
  induction l with
  | nil =>
    intro m hm
    cases m with
    | nil => rfl
    | cons b bs => simp at hm
  | cons x xs ih =>
    intro m hm
    cases m with
    | nil => simp at hm
    | cons b bs =>
      have hlen : xs.length = bs.length := by simpa using hm
      cases b
      · simp only [maskFilter, Bool.false_eq_true, if_false, truePositions]
        rw [truePositions_shift bs 0, List.map_map, ih bs hlen]
        apply List.map_congr_left
        intro i hi
        simp
      · simp only [maskFilter, if_true, truePositions]
        rw [truePositions_shift bs 0, List.map_cons, List.map_map, ih bs hlen]
        simp only [List.cons.injEq]
        refine ⟨rfl, ?_⟩
        apply List.map_congr_left
        intro i hi
        simp

/-- C10: in every detection call on length-aligned tensors, either an assert
fails or nothing is detected, or the debug info of the successful result is
consistent: one common index list (the true positions of the single boolean
threshold mask) generates the filtered detection rows, the filtered anchors
and the filtered probabilities; the recorded `selected_box_id` is a valid
index into the filtered arrays (which have equal length); and the returned
keypoints are computed from exactly the selected row and anchor. -/
theorem C10_mask_alignment (anchors : List Vec2) (infer : Image → NetOut)
    (img : Image)
    (hlr : (infer img).reg.length = (infer img).clf.length)
    (hla : anchors.length = (infer img).clf.length) :
    (∃ e, detect_hand anchors infer img = .error e) ∨
    detect_hand anchors infer img = .ok none ∨
    ∃ source kps dbg,
      detect_hand anchors infer img = .ok (some (source, kps, dbg)) ∧
      ∃ idxs : List ℕ,
        dbg.detection_candidates = idxs.map (fun i => (infer img).reg.getD i []) ∧
        dbg.anchor_candidates = idxs.map (fun i => anchors.getD i (0, 0)) ∧
        maskFilter ((infer img).clf.map sigm) (maskOf ((infer img).clf.map sigm)) =
          idxs.map (fun i => ((infer img).clf.map sigm).getD i 0) ∧
        dbg.selected_box_id < dbg.detection_candidates.length ∧
        dbg.anchor_candidates.length = dbg.detection_candidates.length ∧
        kps = keypointsOf (dbg.detection_candidates.getD dbg.selected_box_id [])
          (dbg.anchor_candidates.getD dbg.selected_box_id (0, 0)) := by
  cases hchk : checkImg img with
  | error e => exact Or.inl ⟨e, by simp only [detect_hand, hchk]⟩
  | ok u =>
    have hPM : ((infer img).clf.map sigm).length =
        (maskOf ((infer img).clf.map sigm)).length := by
      simp [maskOf]
    have hRM : (infer img).reg.length = (maskOf ((infer img).clf.map sigm)).length := by
      simp [maskOf, hlr]
    have hAM : anchors.length = (maskOf ((infer img).clf.map sigm)).length := by
      simp [maskOf, hla]
    have g1 : maskFilter (infer img).reg (maskOf ((infer img).clf.map sigm)) =
        (truePositions (maskOf ((infer img).clf.map sigm)) 0).map
          (fun i => (infer img).reg.getD i []) :=
      maskFilter_eq_map [] _ _ hRM
    have g2 : maskFilter anchors (maskOf ((infer img).clf.map sigm)) =
        (truePositions (maskOf ((infer img).clf.map sigm)) 0).map
          (fun i => anchors.getD i (0, 0)) :=
      maskFilter_eq_map (0, 0) _ _ hAM
    have g3 : maskFilter ((infer img).clf.map sigm) (maskOf ((infer img).clf.map sigm)) =
        (truePositions (maskOf ((infer img).clf.map sigm)) 0).map
          (fun i => ((infer img).clf.map sigm).getD i 0) :=
      maskFilter_eq_map 0 _ _ hPM
    cases hd : detect_hand anchors infer img with
    | error e => exact Or.inl ⟨e, rfl⟩
    | ok o =>
      cases o with
      | none => exact Or.inr (Or.inl rfl)
      | some v =>
        obtain ⟨src, rest⟩ := v
        obtain ⟨kps, dbg⟩ := rest
        simp only [detect_hand, hchk] at hd
        by_cases hnil :
            (maskFilter (infer img).reg (maskOf ((infer img).clf.map sigm))).length = 0
        · rw [if_pos hnil] at hd
          simp at hd
        · rw [if_neg hnil] at hd
          simp only [Except.ok.injEq, Option.some.injEq, Prod.mk.injEq] at hd
          obtain ⟨hsrc, hkps, hdbg⟩ := hd
          have lcd : (maskFilter (infer img).reg
              (maskOf ((infer img).clf.map sigm))).length =
              (truePositions (maskOf ((infer img).clf.map sigm)) 0).length := by
            rw [g1, List.length_map]
          have lca : (maskFilter anchors (maskOf ((infer img).clf.map sigm))).length =
              (truePositions (maskOf ((infer img).clf.map sigm)) 0).length := by
            rw [g2, List.length_map]
          have lps : (maskFilter ((infer img).clf.map sigm)
              (maskOf ((infer img).clf.map sigm))).length =
              (truePositions (maskOf ((infer img).clf.map sigm)) 0).length := by
            rw [g3, List.length_map]
          have lzip : (((List.zipWith movedRow
              (maskFilter (infer img).reg (maskOf ((infer img).clf.map sigm)))
              (maskFilter anchors (maskOf ((infer img).clf.map sigm)))).map box4of).zip
              (maskFilter ((infer img).clf.map sigm)
                (maskOf ((infer img).clf.map sigm)))).length =
              (truePositions (maskOf ((infer img).clf.map sigm)) 0).length := by
            rw [List.length_zip, List.length_map, List.length_zipWith, lcd, lca,
              min_self, lps, min_self]
          have hzne : ((List.zipWith movedRow
              (maskFilter (infer img).reg (maskOf ((infer img).clf.map sigm)))
              (maskFilter anchors (maskOf ((infer img).clf.map sigm)))).map box4of).zip
              (maskFilter ((infer img).clf.map sigm)
                (maskOf ((infer img).clf.map sigm))) ≠ [] := by
            intro h
            apply hnil
            have h0 := congrArg List.length h
            rw [lzip, List.length_nil] at h0
            rw [lcd, h0]
          obtain ⟨hlt, -⟩ := nms_head_spec overlapThresh _ _ hzne
          refine Or.inr (Or.inr ⟨src, kps, dbg, rfl,
            truePositions (maskOf ((infer img).clf.map sigm)) 0, ?_, ?_, g3, ?_, ?_, ?_⟩)
          · rw [← hdbg]
            exact g1
          · rw [← hdbg]
            exact g2
          · rw [← hdbg]
            exact lt_of_lt_of_le hlt (le_of_eq (lzip.trans lcd.symm))
          · rw [← hdbg]
            exact lca.trans lcd.symm
          · rw [← hdbg, ← hkps]

/-- Witness for C10 at a concrete aligned one-anchor input. -/
theorem C10_witness :
    (∃ e, detect_hand anchors1 infer1 [] = .error e) ∨
    detect_hand anchors1 infer1 [] = .ok none ∨
    ∃ source kps dbg,
      detect_hand anchors1 infer1 [] = .ok (some (source, kps, dbg)) ∧
      ∃ idxs : List ℕ,
        dbg.detection_candidates = idxs.map (fun i => (infer1 []).reg.getD i []) ∧
        dbg.anchor_candidates = idxs.map (fun i => anchors1.getD i (0, 0)) ∧
        maskFilter ((infer1 []).clf.map sigm) (maskOf ((infer1 []).clf.map sigm)) =
          idxs.map (fun i => ((infer1 []).clf.map sigm).getD i 0) ∧
        dbg.selected_box_id < dbg.detection_candidates.length ∧
        dbg.anchor_candidates.length = dbg.detection_candidates.length ∧
        kps = keypointsOf (dbg.detection_candidates.getD dbg.selected_box_id [])
          (dbg.anchor_candidates.getD dbg.selected_box_id (0, 0)) :=
  C10_mask_alignment anchors1 infer1 [] rfl rfl

end

end BlazePalm
